import Mathlib

/-!
Verification of the make-parser combinator engine.

The model follows the TypeScript source: strings are lists of characters,
`Result` is the tagged union returned by a parse attempt, and a parser is a
function from the input and a start index to a `Result`.  The `repeat`
combinator contains a while loop that need not terminate for arbitrary
sub-parsers, so it is modelled with an explicit fuel parameter returning
`Option Result` (`none` means the loop budget ran out).  Parsers assembled
from the public API surface are additionally modelled by the syntax type
`PSyn` together with a fuel-indexed evaluator `evalP`, which is used to state
the API-wide invariants.
-/

/-- A TypeScript string, modelled as its list of characters. -/
abbrev Str : Type := List Char

/-- JS string indexing with the `?? \x27\x27` fallback used by `Parser.match`:
the one-character string at index `i`, or the empty string when `i` is out of
range. -/
def charAt (code : Str) (i : Nat) : Str :=
  match code.get? i with
  | some c => [c]
  | none => []

/-- JS `String.prototype.substring`: clamps both arguments to the string
length and swaps them when the first exceeds the second. -/
def substringJS (code : Str) (a b : Nat) : Str :=
  (code.take (max a b)).drop (min a b)

/-- The runtime value produced by a parser.  The TS library is untyped at
runtime: `match`, `word` and `wrap` produce strings, `concat` produces a
two-element tuple, `repeat` produces an array, and `NONE` produces `null`. -/
inductive Value : Type where
  | null : Value
  | str (s : Str) : Value
  | pair (fst snd : Value) : Value
  | list (elems : List Value) : Value

/-- TS `value[0]` on the tuple produced by `concat` (used by `join`).  On a
non-tuple the TS expression would be `undefined`; that case is unreachable
because `join` only applies it to values produced by `concat`. -/
def Value.fst : Value → Value
  | .pair a _ => a
  | _ => .null

/-- TS `value[1]` on the tuple produced by `concat` (used by `joinRight`). -/
def Value.snd : Value → Value
  | .pair _ b => b
  | _ => .null

/-- The result of `Parser.parse`: either a success carrying a value and an
end index, or a failure carrying messages, a fail index and the optional
`unReversible` flag (absent in TS means `false`). -/
inductive Result : Type where
  | success (value : Value) (endIndex : Nat) : Result
  | failure (messages : List Str) (failIndex : Nat) (unReversible : Bool) : Result

/-- A parser, identified with its `parse` function `(code, startIndex) ↦ Result`. -/
abbrev ParserFun : Type := Str → Nat → Result

/-- Source `Parser.prototype.map`. -/
def Parser.map (p : ParserFun) (f : Value → Nat → Nat → Value) : ParserFun :=
  fun code startIndex =>
    match p code startIndex with
    | .failure m fi u => .failure m fi u
    | .success v e => .success (f v startIndex e) e

/-- Source `Parser.prototype.mapFailMessages`. -/
def Parser.mapFailMessages (p : ParserFun) (f : List Str → List Str) : ParserFun :=
  fun code startIndex =>
    match p code startIndex with
    | .success v e => .success v e
    | .failure m fi u => .failure (f m) fi u

/-- Source `Parser.prototype.concat`. -/
def Parser.concat (a b : ParserFun) : ParserFun :=
  fun code startIndex =>
    match a code startIndex with
    | .failure m fi u => .failure m fi u
    | .success va ea =>
      match b code ea with
      | .failure m fi u => .failure m fi u
      | .success vb eb => .success (.pair va vb) eb

/-- Source `Parser.prototype.join`: `this.concat(parser).map(value => value[0])`. -/
def Parser.join (a b : ParserFun) : ParserFun :=
  Parser.map (Parser.concat a b) (fun v _ _ => v.fst)

/-- Source `Parser.prototype.joinRight`: `this.concat(parser).map(value => value[1])`. -/
def Parser.joinRight (a b : ParserFun) : ParserFun :=
  Parser.map (Parser.concat a b) (fun v _ _ => v.snd)

/-- Source `Parser.prototype.unReversible`. -/
def Parser.unReversible (p : ParserFun) : ParserFun :=
  fun code startIndex =>
    match p code startIndex with
    | .success v e => .success v e
    | .failure m fi _ => .failure m fi true

/-- Source `Parser.prototype.union`. -/
def Parser.union (a b : ParserFun) : ParserFun :=
  fun code startIndex =>
    match a code startIndex with
    | .success v e => .success v e
    | .failure ma fa ua =>
      if ua = true then .failure ma fa ua
      else
        match b code startIndex with
        | .success v e => .success v e
        | .failure mb fb ub =>
          if ub = true then .failure mb fb ub
          else .failure (ma ++ mb) startIndex false

/-- Source `Parser.match` (named `matchP` because `match` is a Lean keyword). -/
def Parser.matchP (filter : Str → Bool) (getMessage : Str → Str) : ParserFun :=
  fun code startIndex =>
    let character := charAt code startIndex
    if filter character then .success (.str character) (startIndex + 1)
    else .failure [getMessage character] startIndex false

/-- The default `getMessage` argument of `Parser.match`. -/
def defaultMatchMessage : Str → Str := fun character =>
  ("Unexpected Character: \x27".data) ++ character ++ ("\x27".data)

/-- Source `Parser.NONE`. -/
def Parser.NONE : ParserFun :=
  fun _ startIndex => .success .null startIndex

/-- Source `Parser.prototype.option`: `this.union(Parser.NONE)`. -/
def Parser.option (p : ParserFun) : ParserFun :=
  Parser.union p Parser.NONE

/-- Source `Parser.prototype.wrap`. -/
def Parser.wrap (p : ParserFun) : ParserFun :=
  fun code startIndex =>
    match p code startIndex with
    | .failure m fi u => .failure m fi u
    | .success _ e => .success (.str (substringJS code startIndex e)) e

/-- The while loop inside source `Parser.prototype.repeat`, with explicit
fuel bounding the number of iterations (the TS loop can run forever on a
zero-width-success sub-parser, so it cannot be a total function of the other
arguments).  The sub-parser is `Option`-valued so the same loop serves the
fuel-indexed evaluator `evalP`; `none` propagates. -/
def Parser.repeatAux (p : Str → Nat → Option Result) (code : Str) (minIter : Nat) :
    Nat → List Value → Nat → Option Result
  | 0, _, _ => none
  | fuel + 1, values, endIndex =>
    if endIndex < code.length ∨ values.length < minIter then
      match p code endIndex with
      | none => none
      | some (.failure m fi u) =>
        if u = true ∨ values.length < minIter then some (.failure m fi u)
        else some (.success (.list values) endIndex)
      | some (.success v e) =>
        Parser.repeatAux p code minIter fuel (values ++ [v]) e
    else some (.success (.list values) endIndex)

/-- Source `Parser.prototype.repeat` applied to a total parser, with fuel. -/
def Parser.repeatF (p : ParserFun) (minIter fuel : Nat) : Str → Nat → Option Result :=
  fun code startIndex =>
    Parser.repeatAux (fun c i => some (p c i)) code minIter fuel [] startIndex

/-- The state of the repeat loop after `k` successful iterations of `p`
starting from `startIndex`: the values accumulated in order together with the
end index of the last success (`startIndex` when `k = 0`); `none` when some
earlier attempt in the chain failed. -/
def Parser.iters (p : ParserFun) (code : Str) (startIndex : Nat) : Nat → Option (List Value × Nat)
  | 0 => some ([], startIndex)
  | k + 1 =>
    match Parser.iters p code startIndex k with
    | none => none
    | some (vs, e) =>
      match p code e with
      | .success v e2 => some (vs ++ [v], e2)
      | .failure _ _ _ => none

/-- The filter of the first `Parser.match` built by source `word`:
`(char) => char === word[0]` (for the empty literal, `word[0]` is
`undefined` and the strict comparison with a string is always false). -/
def wordFilterFirst (w : Str) : Str → Bool := fun char =>
  match w.head? with
  | some w0 => char == [w0]
  | none => false

/-- The message builder of the first `Parser.match` built by source `word`. -/
def wordMsgFirst (w : Str) : Str → Str := fun char =>
  ("Unexpected character: expected \x27".data) ++ w ++
    ("\x27, instead found \x27".data) ++ char ++ ("\x27".data)

/-- The message builder of the per-character `Parser.match` built by source
`word` for `character`. -/
def wordMsgInner (w : Str) (character : Char) : Str → Str := fun char =>
  ("Unexpected character: expected \x27".data) ++ w ++
    ("\x27 (specifically \x27".data) ++ [character] ++
    ("\x27), instead found \x27".data) ++ char ++ ("\x27".data)

/-- One step of the loop in source `word`:
`parser = parser.concat(Parser.match(...)).wrap()`. -/
def wordStep (w : Str) (parser : ParserFun) (character : Char) : ParserFun :=
  Parser.wrap (Parser.concat parser
    (Parser.matchP (fun char => char == [character]) (wordMsgInner w character)))

/-- Source `word`: a `Parser.match` on the first character, extended by one
`concat`/`wrap` step per remaining character of the literal. -/
def word (w : Str) : ParserFun :=
  (w.drop 1).foldl (wordStep w) (Parser.matchP (wordFilterFirst w) (wordMsgFirst w))

/-- Syntax of parsers assembled from the public API surface: the primitives
`match`, `word`, `NONE` and `dynamic`, and the combinators.  `dynamic` holds
an index into an environment of rules so that mutually recursive grammars are
representable; `match`, `map` and `mapFailMessages` hold the caller-supplied
functions. -/
inductive PSyn : Type where
  | matchS (filter : Str → Bool) (getMessage : Str → Str) : PSyn
  | wordS (w : Str) : PSyn
  | noneS : PSyn
  | dynamicS (n : Nat) : PSyn
  | mapS (f : Value → Nat → Nat → Value) (a : PSyn) : PSyn
  | mapFailMessagesS (f : List Str → List Str) (a : PSyn) : PSyn
  | concatS (a b : PSyn) : PSyn
  | joinS (a b : PSyn) : PSyn
  | joinRightS (a b : PSyn) : PSyn
  | unReversibleS (a : PSyn) : PSyn
  | unionS (a b : PSyn) : PSyn
  | repeatS (a : PSyn) (minIter : Nat) : PSyn
  | wrapS (a : PSyn) : PSyn
  | optionS (a : PSyn) : PSyn

/-- Fuel-indexed evaluator for API-assembled parsers.  Every case mirrors the
corresponding TS method; `join`, `joinRight` and `option` delegate to the
compositions by which the source defines them; `none` means the fuel ran
out. -/
def evalP : Nat → (Nat → PSyn) → PSyn → Str → Nat → Option Result
  | 0, _, _, _, _ => none
  | fuel' + 1, env, syn, code, startIndex =>
    match syn with
    | .matchS f g => some (Parser.matchP f g code startIndex)
    | .wordS w => some (word w code startIndex)
    | .noneS => some (Parser.NONE code startIndex)
    | .dynamicS n => evalP fuel' env (env n) code startIndex
    | .mapS f a =>
      match evalP fuel' env a code startIndex with
      | none => none
      | some (.failure m fi u) => some (.failure m fi u)
      | some (.success v e) => some (.success (f v startIndex e) e)
    | .mapFailMessagesS f a =>
      match evalP fuel' env a code startIndex with
      | none => none
      | some (.success v e) => some (.success v e)
      | some (.failure m fi u) => some (.failure (f m) fi u)
    | .concatS a b =>
      match evalP fuel' env a code startIndex with
      | none => none
      | some (.failure m fi u) => some (.failure m fi u)
      | some (.success va ea) =>
        match evalP fuel' env b code ea with
        | none => none
        | some (.failure m fi u) => some (.failure m fi u)
        | some (.success vb eb) => some (.success (.pair va vb) eb)
    | .joinS a b =>
      evalP fuel' env (.mapS (fun v _ _ => v.fst) (.concatS a b)) code startIndex
    | .joinRightS a b =>
      evalP fuel' env (.mapS (fun v _ _ => v.snd) (.concatS a b)) code startIndex
    | .unReversibleS a =>
      match evalP fuel' env a code startIndex with
      | none => none
      | some (.success v e) => some (.success v e)
      | some (.failure m fi _) => some (.failure m fi true)
    | .unionS a b =>
      match evalP fuel' env a code startIndex with
      | none => none
      | some (.success v e) => some (.success v e)
      | some (.failure ma fa ua) =>
        if ua = true then some (.failure ma fa ua)
        else
          match evalP fuel' env b code startIndex with
          | none => none
          | some (.success v e) => some (.success v e)
          | some (.failure mb fb ub) =>
            if ub = true then some (.failure mb fb ub)
            else some (.failure (ma ++ mb) startIndex false)
    | .repeatS a minIter =>
      Parser.repeatAux (fun c i => evalP fuel' env a c i) code minIter (fuel' + 1) [] startIndex
    | .wrapS a =>
      match evalP fuel' env a code startIndex with
      | none => none
      | some (.failure m fi u) => some (.failure m fi u)
      | some (.success _ e) => some (.success (.str (substringJS code startIndex e)) e)
    | .optionS a =>
      evalP fuel' env (.unionS a .noneS) code startIndex

/-- C1: `union(a, b)` returns `a`'s Success without invoking `b` when `a`
succeeds; returns `a`'s committed Failure unchanged without invoking `b`;
when `a` fails uncommitted it attempts `b` at the same position `P`,
returning `b`'s Success or `b`'s committed Failure as-is; and when both fail
uncommitted it fails at `P` with `a`'s messages followed by `b`'s messages,
uncommitted.  Independence from `b` in the first two cases is expressed by
quantifying over an arbitrary second parser `b2`. -/
theorem union_spec (a b : ParserFun) (code : Str) (P : Nat) :
    (∀ v e, a code P = .success v e →
      ∀ b2 : ParserFun, Parser.union a b2 code P = .success v e) ∧
    (∀ m fi, a code P = .failure m fi true →
      ∀ b2 : ParserFun, Parser.union a b2 code P = .failure m fi true) ∧
    (∀ ma fa, a code P = .failure ma fa false →
      (∀ v e, b code P = .success v e → Parser.union a b code P = .success v e) ∧
      (∀ mb fb, b code P = .failure mb fb true →
        Parser.union a b code P = .failure mb fb true) ∧
      (∀ mb fb, b code P = .failure mb fb false →
        Parser.union a b code P = .failure (ma ++ mb) P false)) := by
  refine ⟨?_, ?_, ?_⟩
  · intro v e h b2
    simp [Parser.union, h]
  · intro m fi h b2
    simp [Parser.union, h]
  · intro ma fa h
    refine ⟨?_, ?_, ?_⟩
    · intro v e hb
      simp [Parser.union, h, hb]
    · intro mb fb hb
      simp [Parser.union, h, hb]
    · intro mb fb hb
      simp [Parser.union, h, hb]

/-- Witness for C1 at a concrete input: the first branch succeeds, so the
union returns its Success whatever the second branch is. -/
theorem union_spec_witness :
    Parser.NONE ("a".data) 0 = .success .null 0 ∧
      Parser.union Parser.NONE (word ("x".data)) ("a".data) 0 = .success .null 0 :=
  ⟨rfl, (union_spec Parser.NONE (word ("x".data)) ("a".data) 0).1 .null 0 rfl (word ("x".data))⟩

/-- C4: `concat(a, b)` succeeds iff `a` succeeds at `P` and `b` succeeds at
`a`'s end position; on double success the value is the pair of the two values
and the end position is `b`'s; either sub-failure is returned unchanged,
commit flag and fail position included. -/
theorem concat_spec (a b : ParserFun) (code : Str) (P : Nat) :
    (∀ m fi u, a code P = .failure m fi u → Parser.concat a b code P = .failure m fi u) ∧
    (∀ va ea, a code P = .success va ea →
      (∀ m fi u, b code ea = .failure m fi u → Parser.concat a b code P = .failure m fi u) ∧
      (∀ vb eb, b code ea = .success vb eb →
        Parser.concat a b code P = .success (.pair va vb) eb)) ∧
    ((∃ v e, Parser.concat a b code P = .success v e) ↔
      (∃ va ea vb eb, a code P = .success va ea ∧ b code ea = .success vb eb)) := by
  refine ⟨?_, ?_, ?_⟩
  · intro m fi u h
    simp [Parser.concat, h]
  · intro va ea h
    refine ⟨?_, ?_⟩
    · intro m fi u hb
      simp [Parser.concat, h, hb]
    · intro vb eb hb
      simp [Parser.concat, h, hb]
  · constructor
    · rintro ⟨v, e, h⟩
      cases ha : a code P with
      | failure m fi u => simp [Parser.concat, ha] at h
      | success va ea =>
        cases hb : b code ea with
        | failure m fi u => simp [Parser.concat, ha, hb] at h
        | success vb eb => exact ⟨va, ea, vb, eb, rfl, hb⟩
    · rintro ⟨va, ea, vb, eb, ha, hb⟩
      exact ⟨.pair va vb, eb, by simp [Parser.concat, ha, hb]⟩

/-- Witness for C4 at a concrete input: both halves succeed and the pair and
end position are as described. -/
theorem concat_spec_witness :
    word ("x".data) ("xy".data) 0 = .success (.str ("x".data)) 1 ∧
      word ("y".data) ("xy".data) 1 = .success (.str ("y".data)) 2 ∧
      Parser.concat (word ("x".data)) (word ("y".data)) ("xy".data) 0 =
        .success (.pair (.str ("x".data)) (.str ("y".data))) 2 :=
  ⟨rfl, rfl,
    ((concat_spec (word ("x".data)) (word ("y".data)) ("xy".data) 0).2.1
      (.str ("x".data)) 1 rfl).2 (.str ("y".data)) 2 rfl⟩

/-- C7: `match(filter, getMessage)` passes the one-character string at `P`
(the empty string at or past end of input) to the filter; on acceptance it
succeeds with that character as value and end position `P + 1`; on rejection
it fails at `P` with the single message built from that character, commit
flag false. -/
theorem match_spec (f : Str → Bool) (g : Str → Str) (code : Str) (P : Nat) :
    (charAt code P = [] ↔ code.length ≤ P) ∧
    (∀ c, code.get? P = some c → charAt code P = [c]) ∧
    (f (charAt code P) = true →
      Parser.matchP f g code P = .success (.str (charAt code P)) (P + 1)) ∧
    (f (charAt code P) = false →
      Parser.matchP f g code P = .failure [g (charAt code P)] P false) := by
  refine ⟨?_, ?_, ?_, ?_⟩
  · unfold charAt
    cases hc : code.get? P with
    | none =>
      simp only [List.get?_eq_none] at hc
      simp [hc]
    | some c =>
      have : P < code.length := by
        by_contra hlt
        rw [List.get?_eq_none.mpr (Nat.le_of_not_lt hlt)] at hc
        exact Option.noConfusion hc
      simp [hc, Nat.not_le.mpr this]
  · intro c hc
    unfold charAt
    rw [hc]
  · intro h
    simp [Parser.matchP, h]
  · intro h
    simp [Parser.matchP, h]

/-- Witness for C7 at a concrete input: the filter accepts the character at
position 0, so the match succeeds with it and end position 1. -/
theorem match_spec_witness :
    ((fun c => c == ("x".data)) (charAt ("x".data) 0) = true) ∧
      Parser.matchP (fun c => c == ("x".data)) defaultMatchMessage ("x".data) 0 =
        .success (.str (charAt ("x".data) 0)) 1 :=
  ⟨rfl, (match_spec (fun c => c == ("x".data)) defaultMatchMessage ("x".data) 0).2.2.1 rfl⟩

/-- C8: `option(p)` never returns a Failure unless `p` fails committed: on
`p`'s success it returns it, on an uncommitted failure of `p` it succeeds
with the null value at the start position, on a committed failure of `p` it
returns that failure; conversely any Failure it returns is a committed
failure of `p`, returned verbatim. -/
theorem option_spec (p : ParserFun) (code : Str) (P : Nat) :
    (∀ v e, p code P = .success v e → Parser.option p code P = .success v e) ∧
    (∀ m fi, p code P = .failure m fi false → Parser.option p code P = .success .null P) ∧
    (∀ m fi, p code P = .failure m fi true → Parser.option p code P = .failure m fi true) ∧
    (∀ m fi u, Parser.option p code P = .failure m fi u →
      u = true ∧ p code P = .failure m fi true) := by
  refine ⟨?_, ?_, ?_, ?_⟩
  · intro v e h
    simp [Parser.option, Parser.union, h]
  · intro m fi h
    simp [Parser.option, Parser.union, h, Parser.NONE]
  · intro m fi h
    simp [Parser.option, Parser.union, h]
  · intro m fi u h
    cases hp : p code P with
    | success v e => simp [Parser.option, Parser.union, hp] at h
    | failure m2 fi2 u2 =>
      cases u2 with
      | false => simp [Parser.option, Parser.union, hp, Parser.NONE] at h
      | true =>
        rw [show Parser.option p code P = Result.failure m2 fi2 true from by
          simp [Parser.option, Parser.union, hp]] at h
        cases h
        exact ⟨rfl, rfl⟩

/-- Witness for C8 at a concrete input: the sub-parser fails uncommitted, so
the option succeeds with the null value at the start position. -/
theorem option_spec_witness :
    word ("x".data) ("a".data) 0 =
        .failure [("Unexpected character: expected \x27x\x27, instead found \x27a\x27".data)] 0 false ∧
      Parser.option (word ("x".data)) ("a".data) 0 = .success .null 0 :=
  ⟨rfl, (option_spec (word ("x".data)) ("a".data) 0).2.1
    [("Unexpected character: expected \x27x\x27, instead found \x27a\x27".data)] 0 rfl⟩

/-- C6 counterexample: `word` applied to the empty literal does not fail at
construction time; it returns an ordinary parser which, run on the input
`"a"` at position 0, reports an ordinary uncommitted parse Failure at parse
time. -/
theorem word_empty_counterexample :
    word ([] : Str) ("a".data) 0 =
      .failure [("Unexpected character: expected \x27\x27, instead found \x27a\x27".data)] 0 false := rfl

/-- C6 amended: calling `word` with the empty literal performs no
construction-time check; it returns a parser whose first-character filter
never accepts, so on every input and start position it returns an ordinary
uncommitted Failure at the start position with the single message built from
the character found there. -/
theorem word_empty_always_fails (code : Str) (P : Nat) :
    word ([] : Str) code P = .failure [wordMsgFirst [] (charAt code P)] P false := rfl

/-- Soundness of the repeat loop from an arbitrary intermediate state: if the
accumulated state `(vs, e)` is the canonical chain state after `vs.length`
successes and the loop condition held at every earlier state, then any result
the loop returns is either a verbatim failure of `p` at a chain state whose
stop condition (committed, or minimum unmet) holds, or a success carrying a
chain state whose values satisfy the minimum and at whose end position the
input is exhausted or `p` fails uncommitted. -/
theorem repeatAux_sound (p : ParserFun) (code : Str) (minIter start : Nat) :
    ∀ (fuel : Nat) (vs : List Value) (e : Nat) (r : Result),
      Parser.iters p code start vs.length = some (vs, e) →
      (∀ j vsj ej, j < vs.length → Parser.iters p code start j = some (vsj, ej) →
        ej < code.length ∨ j < minIter) →
      Parser.repeatAux (fun c i => some (p c i)) code minIter fuel vs e = some r →
      ((∀ m fi u, r = .failure m fi u →
          ∃ vs2 e2, Parser.iters p code start vs2.length = some (vs2, e2) ∧
            p code e2 = .failure m fi u ∧ (u = true ∨ vs2.length < minIter) ∧
            (e2 < code.length ∨ vs2.length < minIter) ∧
            (∀ j vsj ej, j < vs2.length → Parser.iters p code start j = some (vsj, ej) →
              ej < code.length ∨ j < minIter)) ∧
        (∀ v e2, r = .success v e2 →
          ∃ vs2, v = .list vs2 ∧ Parser.iters p code start vs2.length = some (vs2, e2) ∧
            minIter ≤ vs2.length ∧
            (code.length ≤ e2 ∨ ∃ m fi, p code e2 = .failure m fi false) ∧
            (∀ j vsj ej, j < vs2.length → Parser.iters p code start j = some (vsj, ej) →
              ej < code.length ∨ j < minIter))) := by
  intro fuel
  induction fuel with
  | zero =>
    intro vs e r _ _ hrun
    simp [Parser.repeatAux] at hrun
  | succ fuel ih =>
    intro vs e r hiters hhist hrun
    by_cases hcond : e < code.length ∨ vs.length < minIter
    · cases hp : p code e with
      | failure m fi u =>
        by_cases hu : u = true ∨ vs.length < minIter
        · simp only [Parser.repeatAux, hp, hcond, hu, if_true] at hrun
          obtain rfl := Option.some.inj hrun
          refine ⟨?_, ?_⟩
          · intro m' fi' u' hr
            cases hr
            exact ⟨vs, e, hiters, hp, hu, hcond, hhist⟩
          · intro v' e' hr
            cases hr
        · simp only [Parser.repeatAux, hp, hcond, hu, if_true, if_false] at hrun
          obtain rfl := Option.some.inj hrun
          have hu1 : u = false := by
            cases u with
            | false => rfl
            | true => exact absurd (Or.inl rfl) hu
          have hu2 : minIter ≤ vs.length :=
            Nat.le_of_not_lt (fun hlt => hu (Or.inr hlt))
          refine ⟨?_, ?_⟩
          · intro m' fi' u' hr
            cases hr
          · intro v' e' hr
            cases hr
            exact ⟨vs, rfl, hiters, hu2, Or.inr ⟨m, fi, by rw [hu1] at hp; exact hp⟩, hhist⟩
      | success v e2 =>
        simp only [Parser.repeatAux, hp, hcond, if_true] at hrun
        have hlen : (vs ++ [v]).length = vs.length + 1 := by simp
        have hiters2 : Parser.iters p code start (vs ++ [v]).length = some (vs ++ [v], e2) := by
          rw [hlen]
          simp [Parser.iters, hiters, hp]
        have hhist2 : ∀ j vsj ej, j < (vs ++ [v]).length →
            Parser.iters p code start j = some (vsj, ej) →
            ej < code.length ∨ j < minIter := by
          intro j vsj ej hj hit
          rw [hlen] at hj
          rcases Nat.lt_succ_iff_lt_or_eq.mp hj with hj' | rfl
          · exact hhist j vsj ej hj' hit
          · rw [hiters] at hit
            obtain ⟨rfl, rfl⟩ := Prod.mk.inj (Option.some.inj hit)
            exact hcond
        exact ih (vs ++ [v]) e2 r hiters2 hhist2 hrun
    · simp only [Parser.repeatAux, hcond, if_false] at hrun
      obtain rfl := Option.some.inj hrun
      have h1 : code.length ≤ e := Nat.le_of_not_lt (fun hlt => hcond (Or.inl hlt))
      have h2 : minIter ≤ vs.length := Nat.le_of_not_lt (fun hlt => hcond (Or.inr hlt))
      refine ⟨?_, ?_⟩
      · intro m' fi' u' hr
        cases hr
      · intro v' e' hr
        cases hr
        exact ⟨vs, rfl, hiters, h2, Or.inl h1, hhist⟩

/-- C2: whenever `repeat(p, minIter)` returns, a Failure result is a verbatim
stopping failure of `p` at a state of the canonical iteration chain where the
failure is committed or fewer than `minIter` successes had accumulated (and
the loop condition held there and at every earlier state); a Success result
carries the ordered accumulated values of a chain state with at least
`minIter` successes whose end position is where the last success ended (the
start position with none), reached because the input was exhausted or `p`
failed uncommitted there. -/
theorem repeat_spec (p : ParserFun) (minIter fuel : Nat) (code : Str) (start : Nat) (r : Result)
    (h : Parser.repeatF p minIter fuel code start = some r) :
    (∀ m fi u, r = .failure m fi u →
      ∃ vs e, Parser.iters p code start vs.length = some (vs, e) ∧
        p code e = .failure m fi u ∧ (u = true ∨ vs.length < minIter) ∧
        (e < code.length ∨ vs.length < minIter) ∧
        (∀ j vsj ej, j < vs.length → Parser.iters p code start j = some (vsj, ej) →
          ej < code.length ∨ j < minIter)) ∧
    (∀ v e, r = .success v e →
      ∃ vs, v = .list vs ∧ Parser.iters p code start vs.length = some (vs, e) ∧
        minIter ≤ vs.length ∧
        (code.length ≤ e ∨ ∃ m fi, p code e = .failure m fi false) ∧
        (∀ j vsj ej, j < vs.length → Parser.iters p code start j = some (vsj, ej) →
          ej < code.length ∨ j < minIter)) := by
  refine repeatAux_sound p code minIter start fuel [] start r rfl ?_ h
  intro j vsj ej hj _
  exact absurd hj (Nat.not_lt_zero j)

/-- Witness for C2 at a concrete input: `repeat(NONE, 0)` on the empty input
returns an empty Success at the start position, and the characterization
holds of it. -/
theorem repeat_spec_witness :
    (∀ m fi u, Result.success (Value.list []) 0 = .failure m fi u →
      ∃ vs e, Parser.iters Parser.NONE [] 0 vs.length = some (vs, e) ∧
        Parser.NONE [] e = .failure m fi u ∧ (u = true ∨ vs.length < 0) ∧
        (e < List.length ([] : Str) ∨ vs.length < 0) ∧
        (∀ j vsj ej, j < vs.length → Parser.iters Parser.NONE [] 0 j = some (vsj, ej) →
          ej < List.length ([] : Str) ∨ j < 0)) ∧
    (∀ v e, Result.success (Value.list []) 0 = .success v e →
      ∃ vs, v = .list vs ∧ Parser.iters Parser.NONE [] 0 vs.length = some (vs, e) ∧
        0 ≤ vs.length ∧
        (List.length ([] : Str) ≤ e ∨ ∃ m fi, Parser.NONE [] e = .failure m fi false) ∧
        (∀ j vsj ej, j < vs.length → Parser.iters Parser.NONE [] 0 j = some (vsj, ej) →
          ej < List.length ([] : Str) ∨ j < 0)) :=
  repeat_spec Parser.NONE 0 1 [] 0 (.success (.list []) 0) rfl

/-- C3 counterexample: `repeat(p, 0)` does not always return a Success.  For
the API parser `p = word("x").unReversible()`, input `"a"` and start
position 0 the loop hits a committed failure on its first iteration and
`repeat(p, 0)` returns that Failure (exactly the behavior documented in the
source doc comment of `unReversible`). -/
theorem repeat_zero_counterexample :
    Parser.repeatF (Parser.unReversible (word ("x".data))) 0 5 ("a".data) 0 =
      some (.failure
        [("Unexpected character: expected \x27x\x27, instead found \x27a\x27".data)] 0 true) := rfl

/-- C3 amended: `repeat(p, 0)`, whenever it returns at all, returns a Success
(possibly with an empty sequence of values) unless `p` fails committed, in
which case it propagates that committed failure: every Failure returned by
`repeat(p, 0)` has its commit (`unReversible`) flag set. -/
theorem repeat_zero_failure_committed (p : ParserFun) (fuel : Nat) (code : Str) (start : Nat)
    (m : List Str) (fi : Nat) (u : Bool)
    (h : Parser.repeatF p 0 fuel code start = some (.failure m fi u)) : u = true := by
  have hs := repeat_spec p 0 fuel code start (.failure m fi u) h
  obtain ⟨vs, e, _, _, hstop, _, _⟩ := hs.1 m fi u rfl
  rcases hstop with h1 | h2
  · exact h1
  · exact absurd h2 (Nat.not_lt_zero _)

/-- Witness for C3 amended at a concrete input: `repeat(word("y").unReversible(), 0)`
on `"b"` returns a Failure, and its commit flag is indeed true. -/
theorem repeat_zero_failure_committed_witness :
    Parser.repeatF (Parser.unReversible (word ("y".data))) 0 3 ("b".data) 0 =
      some (.failure
        [("Unexpected character: expected \x27y\x27, instead found \x27b\x27".data)] 0 true) ∧
    true = true :=
  ⟨rfl, repeat_zero_failure_committed (Parser.unReversible (word ("y".data))) 3 ("b".data) 0
    [("Unexpected character: expected \x27y\x27, instead found \x27b\x27".data)] 0 true rfl⟩

/-- The first `k` characters of the input at offset `P` agree with the first
`k` characters of the literal `w` (agreement of `get?` also requires the
input to actually have a character wherever the literal does). -/
def matchesAt (w code : Str) (P k : Nat) : Prop :=
  ∀ j, j < k → code.get? (P + j) = w.get? j

instance (w code : Str) (P k : Nat) : Decidable (matchesAt w code P k) := by
  unfold matchesAt
  infer_instance

/-- `charAt` returns the one-character string when the index is in range. -/
theorem charAt_eq_of_get (code : Str) (i : Nat) (c : Char) (h : code.get? i = some c) :
    charAt code i = [c] := by
  unfold charAt
  rw [h]

/-- The one-character comparison used by the matchers of `word`, positive case. -/
theorem charAt_beq_true (code : Str) (i : Nat) (ch : Char) (h : code.get? i = some ch) :
    (charAt code i == [ch]) = true := by
  rw [charAt_eq_of_get code i ch h]
  simp

/-- The one-character comparison used by the matchers of `word`, negative
case: when the character at `i` is not `ch` (or is missing) the comparison is
false. -/
theorem charAt_beq_false (code : Str) (i : Nat) (ch : Char) (h : code.get? i ≠ some ch) :
    (charAt code i == [ch]) = false := by
  unfold charAt
  cases hc : code.get? i with
  | none => rfl
  | some c =>
    have hcc : c ≠ ch := fun hcc => h (hcc ▸ hc)
    simp [hcc]

/-- If the input agrees with `u` on `u.length` characters at offset `P`, the
slice of the input from `P` to `P + u.length` is `u`. -/
theorem slice_eq_of_matches (code u : Str) (P : Nat)
    (h : ∀ j, j < u.length → code.get? (P + j) = u.get? j) :
    (code.take (P + u.length)).drop P = u := by
  by_cases hne : u = []
  · subst hne
    apply List.drop_eq_nil_iff.mpr
    rw [List.length_take]
    simp
  · have hpos : 1 ≤ u.length := List.length_pos.mpr hne
    have hbound : P + u.length ≤ code.length := by
      have hn : u.length - 1 < u.length := by omega
      have hsome : code.get? (P + (u.length - 1)) = u.get? (u.length - 1) := h _ hn
      rw [List.get?_eq_get hn] at hsome
      have hlt : P + (u.length - 1) < code.length := by
        by_contra hge
        rw [List.get?_eq_none.mpr (Nat.le_of_not_lt hge)] at hsome
        exact Option.noConfusion hsome
      omega
    apply List.ext_get?
    intro j
    rw [List.get?_drop]
    by_cases hj : j < u.length
    · rw [List.get?_take (by omega)]
      exact h j hj
    · have h1 : (code.take (P + u.length)).get? (P + j) = none := by
        apply List.get?_eq_none.mpr
        rw [List.length_take]
        omega
      have h2 : u.get? j = none := List.get?_eq_none.mpr (Nat.le_of_not_lt hj)
      rw [h1, h2]

/-- Invariant carried along the construction loop of `word`: after the first
`k` characters of the literal have been incorporated, the parser built so far
succeeds exactly on inputs matching those `k` characters, with the matched
prefix as value and end position `P + k`, and on the first mismatch below `k`
it fails uncommitted at that mismatch with a non-empty message list. -/
def WordInv (w : Str) (k : Nat) (p : ParserFun) : Prop :=
  ∀ code P,
    (matchesAt w code P k → p code P = .success (.str (w.take k)) (P + k)) ∧
    (∀ m, m < k → matchesAt w code P m → code.get? (P + m) ≠ w.get? m →
      ∃ msgs, msgs ≠ [] ∧ p code P = .failure msgs (P + m) false)

/-- The first matcher built by `word` satisfies the invariant at `k = 1`. -/
theorem wordInv_base (w : Str) (hw : w ≠ []) :
    WordInv w 1 (Parser.matchP (wordFilterFirst w) (wordMsgFirst w)) := by
  obtain ⟨w0, ws, rfl⟩ : ∃ w0 ws, w = w0 :: ws := by
    cases w with
    | nil => exact absurd rfl hw
    | cons a l => exact ⟨a, l, rfl⟩
  intro code P
  constructor
  · intro hmat
    have hc : code.get? (P + 0) = some w0 := by
      rw [hmat 0 Nat.one_pos]
      rfl
    rw [Nat.add_zero] at hc
    simp [Parser.matchP, wordFilterFirst, charAt_eq_of_get code P w0 hc]
  · intro m hm hmatm hne
    have hm0 : m = 0 := Nat.lt_one_iff.mp hm
    subst hm0
    rw [Nat.add_zero] at hne
    have hne' : code.get? P ≠ some w0 := by
      intro hc
      exact hne (by rw [hc]; rfl)
    refine ⟨[wordMsgFirst (w0 :: ws) (charAt code P)], List.cons_ne_nil _ _, ?_⟩
    have hbeq : wordFilterFirst (w0 :: ws) (charAt code P) = false := by
      unfold wordFilterFirst
      exact charAt_beq_false code P w0 hne'
    simp [Parser.matchP, hbeq]

/-- One construction step of `word` extends the invariant from `k` to `k + 1`
when the incorporated character is the literal character at index `k`. -/
theorem wordInv_step (w : Str) (k : Nat) (p : ParserFun) (ch : Char)
    (hch : w.get? k = some ch) (hinv : WordInv w k p) :
    WordInv w (k + 1) (wordStep w p ch) := by
  have hklt : k < w.length := by
    by_contra hk
    rw [List.get?_eq_none.mpr (Nat.le_of_not_lt hk)] at hch
    exact Option.noConfusion hch
  intro code P
  constructor
  · intro hmat
    have hmatk : matchesAt w code P k := fun j hj => hmat j (Nat.lt_succ_of_lt hj)
    have hpk := (hinv code P).1 hmatk
    have hck : code.get? (P + k) = some ch := by
      rw [hmat k (Nat.lt_succ_self k), hch]
    have hbeq := charAt_beq_true code (P + k) ch hck
    have hslice : substringJS code P (P + k + 1) = w.take (k + 1) := by
      unfold substringJS
      rw [Nat.min_eq_left (by omega), Nat.max_eq_right (by omega)]
      have hlen : (w.take (k + 1)).length = k + 1 := by
        rw [List.length_take]
        omega
      have hs := slice_eq_of_matches code (w.take (k + 1)) P ?_
      · rw [hlen] at hs
        exact hs
      · intro j hj
        rw [hlen] at hj
        rw [List.get?_take hj]
        exact hmat j hj
    simp [wordStep, Parser.wrap, Parser.concat, Parser.matchP, hpk, hbeq, hslice]
    omega
  · intro m hm hmatm hne
    rcases Nat.lt_succ_iff_lt_or_eq.mp hm with hm' | rfl
    · obtain ⟨msgs, hmsgs, hpf⟩ :=
        (hinv code P).2 m hm' hmatm (fun hc => hne hc)
      exact ⟨msgs, hmsgs, by simp [wordStep, Parser.wrap, Parser.concat, Parser.matchP, hpf]⟩
    · have hpk := (hinv code P).1 hmatm
      rw [hch] at hne
      have hbeq := charAt_beq_false code (P + m) ch hne
      refine ⟨[wordMsgInner w ch (charAt code (P + m))], List.cons_ne_nil _ _, ?_⟩
      simp [wordStep, Parser.wrap, Parser.concat, Parser.matchP, hpk, hbeq]

/-- Folding the remaining characters of the literal onto a parser satisfying
the invariant yields the invariant for the whole literal. -/
theorem wordInv_fold (w : Str) :
    ∀ (rest : Str) (k : Nat) (p : ParserFun), k ≤ w.length → w.drop k = rest →
      WordInv w k p → WordInv w w.length (rest.foldl (wordStep w) p) := by
  intro rest
  induction rest with
  | nil =>
    intro k p hk hdrop hinv
    have hlen0 : w.length - k = 0 := by
      have hcongr := congrArg List.length hdrop
      rw [List.length_drop] at hcongr
      simpa using hcongr
    have hkw : k = w.length := by omega
    subst hkw
    exact hinv
  | cons ch rest ih =>
    intro k p hk hdrop hinv
    have hch : w.get? k = some ch := by
      have h0 : (w.drop k).get? 0 = w.get? (k + 0) := List.get?_drop w k 0
      rw [hdrop] at h0
      rw [Nat.add_zero] at h0
      exact h0.symm
    have hklt : k < w.length := by
      by_contra hge
      rw [List.get?_eq_none.mpr (Nat.le_of_not_lt hge)] at hch
      exact Option.noConfusion hch
    have hdrop' : w.drop (k + 1) = rest := by
      have : w.drop (k + 1) = (w.drop k).drop 1 := by
        rw [List.drop_drop]
      rw [this, hdrop]
      rfl
    exact ih (k + 1) (wordStep w p ch) hklt hdrop' (wordInv_step w k p ch hch hinv)

/-- C5: for a non-empty literal, `word(literal).parse(code, P)` succeeds iff
the input characters at `P .. P + length - 1` equal the literal character by
character; on success the value is the literal itself and the end position is
`P + length`; on failure the fail position is `P + m` where `m` is the first
mismatching index (everything before `m` matches, `m` does not) and the
commit flag is false. -/
theorem word_spec (w code : Str) (P : Nat) (hw : w ≠ []) :
    (matchesAt w code P w.length → word w code P = .success (.str w) (P + w.length)) ∧
    (∀ m, m < w.length → matchesAt w code P m → code.get? (P + m) ≠ w.get? m →
      ∃ msgs, word w code P = .failure msgs (P + m) false) ∧
    ((∃ v e, word w code P = .success v e) ↔ matchesAt w code P w.length) := by
  have hinv : WordInv w w.length (word w) := by
    apply wordInv_fold w (w.drop 1) 1 (Parser.matchP (wordFilterFirst w) (wordMsgFirst w))
    · cases w with
      | nil => exact absurd rfl hw
      | cons a l => exact Nat.succ_le_succ (Nat.zero_le _)
    · rfl
    · exact wordInv_base w hw
  refine ⟨?_, ?_, ?_⟩
  · intro hmat
    have := (hinv code P).1 hmat
    rw [List.take_length] at this
    exact this
  · intro m hm hmatm hne
    obtain ⟨msgs, _, heq⟩ := (hinv code P).2 m hm hmatm hne
    exact ⟨msgs, heq⟩
  · constructor
    · rintro ⟨v, e, heq⟩
      by_contra hmat
      have hex : ∃ j, j < w.length ∧ code.get? (P + j) ≠ w.get? j := by
        by_contra hall
        push_neg at hall
        exact hmat (fun j hj => hall j hj)
      classical
      obtain ⟨hm1, hm2⟩ := Nat.find_spec hex
      have hmatm : matchesAt w code P (Nat.find hex) := by
        intro j hj
        have hnot := Nat.find_min hex hj
        push_neg at hnot
        exact hnot (by omega)
      obtain ⟨msgs, _, hfail⟩ := (hinv code P).2 (Nat.find hex) hm1 hmatm hm2
      rw [hfail] at heq
      exact Result.noConfusion heq
    · intro hmat
      have := (hinv code P).1 hmat
      exact ⟨.str (w.take w.length), P + w.length, this⟩

/-- Witness for C5 at a concrete input: `word("ab")` on `"abc"` at 0 matches
and returns the literal with end position 2. -/
theorem word_spec_witness :
    (("ab".data : Str) ≠ []) ∧ matchesAt ("ab".data) ("abc".data) 0 (List.length ("ab".data)) ∧
      word ("ab".data) ("abc".data) 0 =
        .success (.str ("ab".data)) (0 + List.length ("ab".data)) :=
  ⟨by decide, by decide, (word_spec ("ab".data) ("abc".data) 0 (by decide)).1 (by decide)⟩

/-- A parser makes progress: any Success it returns has an end position at
least the start position. -/
def Progress (p : ParserFun) : Prop :=
  ∀ code P v e, p code P = .success v e → P ≤ e

/-- Any failure a parser returns carries a non-empty message list. -/
def FailMsgsNonempty (p : ParserFun) : Prop :=
  ∀ code P m fi u, p code P = .failure m fi u → m ≠ []

theorem matchP_progress (f : Str → Bool) (g : Str → Str) : Progress (Parser.matchP f g) := by
  intro code P v e h
  simp only [Parser.matchP] at h
  split at h
  · cases h
    omega
  · cases h

theorem NONE_progress : Progress Parser.NONE := by
  intro code P v e h
  cases h
  omega

theorem concat_progress (a b : ParserFun) (ha : Progress a) (hb : Progress b) :
    Progress (Parser.concat a b) := by
  intro code P v e h
  simp only [Parser.concat] at h
  cases hra : a code P with
  | failure m fi u =>
    simp only [hra] at h
    cases h
  | success va ea =>
    simp only [hra] at h
    cases hrb : b code ea with
    | failure m fi u =>
      simp only [hrb] at h
      cases h
    | success vb eb =>
      simp only [hrb] at h
      cases h
      exact le_trans (ha code P va ea hra) (hb code ea vb _ hrb)

theorem wrap_progress (p : ParserFun) (hp : Progress p) : Progress (Parser.wrap p) := by
  intro code P v e h
  simp only [Parser.wrap] at h
  cases hr : p code P with
  | failure m fi u =>
    simp only [hr] at h
    cases h
  | success v2 e2 =>
    simp only [hr] at h
    cases h
    exact hp code P v2 _ hr

theorem wordStep_progress (w : Str) (p : ParserFun) (ch : Char) (hp : Progress p) :
    Progress (wordStep w p ch) :=
  wrap_progress _ (concat_progress _ _ hp (matchP_progress _ _))

theorem foldl_wordStep_progress (w : Str) (rest : Str) :
    ∀ p : ParserFun, Progress p → Progress (rest.foldl (wordStep w) p) := by
  induction rest with
  | nil => exact fun p hp => hp
  | cons ch rest ih => exact fun p hp => ih _ (wordStep_progress w p ch hp)

theorem word_progress (w : Str) : Progress (word w) :=
  foldl_wordStep_progress w (w.drop 1) _ (matchP_progress _ _)

theorem matchP_msgs (f : Str → Bool) (g : Str → Str) : FailMsgsNonempty (Parser.matchP f g) := by
  intro code P m fi u h
  simp only [Parser.matchP] at h
  split at h
  · cases h
  · cases h
    exact List.cons_ne_nil _ _

theorem concat_msgs (a b : ParserFun) (ha : FailMsgsNonempty a) (hb : FailMsgsNonempty b) :
    FailMsgsNonempty (Parser.concat a b) := by
  intro code P m fi u h
  simp only [Parser.concat] at h
  cases hra : a code P with
  | failure m2 fi2 u2 =>
    simp only [hra] at h
    cases h
    exact ha code P _ _ _ hra
  | success va ea =>
    simp only [hra] at h
    cases hrb : b code ea with
    | failure m2 fi2 u2 =>
      simp only [hrb] at h
      cases h
      exact hb code ea _ _ _ hrb
    | success vb eb =>
      simp only [hrb] at h
      cases h

theorem wrap_msgs (p : ParserFun) (hp : FailMsgsNonempty p) :
    FailMsgsNonempty (Parser.wrap p) := by
  intro code P m fi u h
  simp only [Parser.wrap] at h
  cases hr : p code P with
  | failure m2 fi2 u2 =>
    simp only [hr] at h
    cases h
    exact hp code P _ _ _ hr
  | success v2 e2 =>
    simp only [hr] at h
    cases h

theorem wordStep_msgs (w : Str) (p : ParserFun) (ch : Char) (hp : FailMsgsNonempty p) :
    FailMsgsNonempty (wordStep w p ch) :=
  wrap_msgs _ (concat_msgs _ _ hp (matchP_msgs _ _))

theorem foldl_wordStep_msgs (w : Str) (rest : Str) :
    ∀ p : ParserFun, FailMsgsNonempty p → FailMsgsNonempty (rest.foldl (wordStep w) p) := by
  induction rest with
  | nil => exact fun p hp => hp
  | cons ch rest ih => exact fun p hp => ih _ (wordStep_msgs w p ch hp)

theorem word_msgs (w : Str) : FailMsgsNonempty (word w) :=
  foldl_wordStep_msgs w (w.drop 1) _ (matchP_msgs _ _)

/-- A Success returned by the repeat loop ends no earlier than the state it
was entered in, provided the sub-parser makes progress. -/
theorem repeatAux_success_progress (p : Str → Nat → Option Result) (code : Str) (minIter : Nat)
    (hp : ∀ i v e, p code i = some (.success v e) → i ≤ e) :
    ∀ fuel vs cur v e,
      Parser.repeatAux p code minIter fuel vs cur = some (.success v e) → cur ≤ e := by
  intro fuel
  induction fuel with
  | zero =>
    intro vs cur v e h
    simp [Parser.repeatAux] at h
  | succ fuel ih =>
    intro vs cur v e h
    by_cases hcond : cur < code.length ∨ vs.length < minIter
    · cases hpc : p code cur with
      | none =>
        simp only [Parser.repeatAux, hcond, hpc, if_true] at h
        cases h
      | some r =>
        cases r with
        | failure m fi u =>
          by_cases hu : u = true ∨ vs.length < minIter
          · simp only [Parser.repeatAux, hcond, hpc, hu, if_true] at h
            exact Result.noConfusion (Option.some.inj h)
          · simp only [Parser.repeatAux, hcond, hpc, hu, if_true, if_false] at h
            cases Option.some.inj h
            exact le_refl _
        | success v2 e2 =>
          simp only [Parser.repeatAux, hcond, hpc, if_true] at h
          exact le_trans (hp cur v2 e2 hpc) (ih (vs ++ [v2]) e2 v e h)
    · simp only [Parser.repeatAux, hcond, if_false] at h
      cases Option.some.inj h
      exact le_refl _

/-- A Failure returned by the repeat loop is some failure the sub-parser
returned verbatim at one of the attempted positions. -/
theorem repeatAux_failure_from (p : Str → Nat → Option Result) (code : Str) (minIter : Nat) :
    ∀ fuel vs cur m fi u,
      Parser.repeatAux p code minIter fuel vs cur = some (.failure m fi u) →
      ∃ i, p code i = some (.failure m fi u) := by
  intro fuel
  induction fuel with
  | zero =>
    intro vs cur m fi u h
    simp [Parser.repeatAux] at h
  | succ fuel ih =>
    intro vs cur m fi u h
    by_cases hcond : cur < code.length ∨ vs.length < minIter
    · cases hpc : p code cur with
      | none =>
        simp only [Parser.repeatAux, hcond, hpc, if_true] at h
        cases h
      | some r =>
        cases r with
        | failure m2 fi2 u2 =>
          by_cases hu : u2 = true ∨ vs.length < minIter
          · simp only [Parser.repeatAux, hcond, hpc, hu, if_true] at h
            cases Option.some.inj h
            exact ⟨cur, hpc⟩
          · simp only [Parser.repeatAux, hcond, hpc, hu, if_true, if_false] at h
            exact Result.noConfusion (Option.some.inj h)
        | success v2 e2 =>
          simp only [Parser.repeatAux, hcond, hpc, if_true] at h
          exact ih (vs ++ [v2]) e2 m fi u h
    · simp only [Parser.repeatAux, hcond, if_false] at h
      exact Result.noConfusion (Option.some.inj h)

/-- C9: every parser assembled from the public API surface (primitives
`match`, `word`, `NONE`, `dynamic` and the combinators `map`,
`mapFailMessages`, `concat`, `join`, `joinRight`, `unReversible`, `union`,
`repeat`, `wrap`, `option`, over any rule environment) satisfies the Success
contract: whenever evaluation returns a Success its end index is at least the
start position given. -/
theorem eval_progress (fuel : Nat) (env : Nat → PSyn) (syn : PSyn) (code : Str) (start : Nat)
    (v : Value) (e : Nat) (h : evalP fuel env syn code start = some (.success v e)) :
    start ≤ e := by
  induction fuel generalizing syn start v e with
  | zero => cases h
  | succ fuel ih =>
    cases syn with
    | matchS f g =>
      simp only [evalP] at h
      exact matchP_progress f g code start v e (Option.some.inj h)
    | wordS w =>
      simp only [evalP] at h
      exact word_progress w code start v e (Option.some.inj h)
    | noneS =>
      simp only [evalP] at h
      exact NONE_progress code start v e (Option.some.inj h)
    | dynamicS n =>
      simp only [evalP] at h
      exact ih (env n) start v e h
    | mapS f a =>
      simp only [evalP] at h
      cases hra : evalP fuel env a code start with
      | none =>
        simp only [hra] at h
        cases h
      | some r =>
        cases r with
        | failure m fi u =>
          simp only [hra] at h
          cases h
        | success v2 e2 =>
          simp only [hra] at h
          cases h
          exact ih a start _ _ hra
    | mapFailMessagesS f a =>
      simp only [evalP] at h
      cases hra : evalP fuel env a code start with
      | none =>
        simp only [hra] at h
        cases h
      | some r =>
        cases r with
        | failure m fi u =>
          simp only [hra] at h
          cases h
        | success v2 e2 =>
          simp only [hra] at h
          cases h
          exact ih a start _ _ hra
    | concatS a b =>
      simp only [evalP] at h
      cases hra : evalP fuel env a code start with
      | none =>
        simp only [hra] at h
        cases h
      | some r =>
        cases r with
        | failure m fi u =>
          simp only [hra] at h
          cases h
        | success va ea =>
          simp only [hra] at h
          cases hrb : evalP fuel env b code ea with
          | none =>
            simp only [hrb] at h
            cases h
          | some r2 =>
            cases r2 with
            | failure m fi u =>
              simp only [hrb] at h
              cases h
            | success vb eb =>
              simp only [hrb] at h
              cases h
              exact le_trans (ih a start va ea hra) (ih b ea vb _ hrb)
    | joinS a b =>
      simp only [evalP] at h
      exact ih _ start v e h
    | joinRightS a b =>
      simp only [evalP] at h
      exact ih _ start v e h
    | unReversibleS a =>
      simp only [evalP] at h
      cases hra : evalP fuel env a code start with
      | none =>
        simp only [hra] at h
        cases h
      | some r =>
        cases r with
        | failure m fi u =>
          simp only [hra] at h
          cases h
        | success v2 e2 =>
          simp only [hra] at h
          cases h
          exact ih a start _ _ hra
    | unionS a b =>
      simp only [evalP] at h
      cases hra : evalP fuel env a code start with
      | none =>
        simp only [hra] at h
        cases h
      | some r =>
        cases r with
        | success v2 e2 =>
          simp only [hra] at h
          cases h
          exact ih a start _ _ hra
        | failure ma fa ua =>
          cases ua with
          | true =>
            simp only [hra] at h
            simp only [if_true] at h
            cases h
          | false =>
            simp only [hra] at h
            rw [if_neg Bool.false_ne_true] at h
            cases hrb : evalP fuel env b code start with
            | none =>
              simp only [hrb] at h
              cases h
            | some r2 =>
              cases r2 with
              | success v2 e2 =>
                simp only [hrb] at h
                cases h
                exact ih b start _ _ hrb
              | failure mb fb ub =>
                cases ub with
                | true =>
                  simp only [hrb] at h
                  simp only [if_true] at h
                  cases h
                | false =>
                  simp only [hrb] at h
                  rw [if_neg Bool.false_ne_true] at h
                  cases h
    | repeatS a minIter =>
      simp only [evalP] at h
      exact repeatAux_success_progress (fun c i => evalP fuel env a c i) code minIter
        (fun i v2 e2 hh => ih a i v2 e2 hh) (fuel + 1) [] start v e h
    | wrapS a =>
      simp only [evalP] at h
      cases hra : evalP fuel env a code start with
      | none =>
        simp only [hra] at h
        cases h
      | some r =>
        cases r with
        | failure m fi u =>
          simp only [hra] at h
          cases h
        | success v2 e2 =>
          simp only [hra] at h
          cases h
          exact ih a start _ _ hra
    | optionS a =>
      simp only [evalP] at h
      exact ih _ start v e h

/-- Witness for C9 at a concrete input: evaluating the API parser `NONE` on
`"a"` at position 0 returns a Success whose end index 0 is at least the
start position 0. -/
theorem eval_progress_witness :
    evalP 1 (fun _ => PSyn.noneS) PSyn.noneS ("a".data) 0 = some (.success .null 0) ∧ 0 ≤ 0 :=
  ⟨rfl, eval_progress 1 (fun _ => PSyn.noneS) PSyn.noneS ("a".data) 0 .null 0 rfl⟩

/-- The message-transform discipline: every function handed to
`mapFailMessages` anywhere in the parser maps non-empty message lists to
non-empty message lists.  All other API constructors are unconditional. -/
inductive MsgSafe : PSyn → Prop where
  | matchS (f : Str → Bool) (g : Str → Str) : MsgSafe (.matchS f g)
  | wordS (w : Str) : MsgSafe (.wordS w)
  | noneS : MsgSafe .noneS
  | dynamicS (n : Nat) : MsgSafe (.dynamicS n)
  | mapS (f : Value → Nat → Nat → Value) {a : PSyn} (ha : MsgSafe a) : MsgSafe (.mapS f a)
  | mapFailMessagesS (f : List Str → List Str) {a : PSyn}
      (hf : ∀ ms : List Str, ms ≠ [] → f ms ≠ []) (ha : MsgSafe a) :
      MsgSafe (.mapFailMessagesS f a)
  | concatS {a b : PSyn} (ha : MsgSafe a) (hb : MsgSafe b) : MsgSafe (.concatS a b)
  | joinS {a b : PSyn} (ha : MsgSafe a) (hb : MsgSafe b) : MsgSafe (.joinS a b)
  | joinRightS {a b : PSyn} (ha : MsgSafe a) (hb : MsgSafe b) : MsgSafe (.joinRightS a b)
  | unReversibleS {a : PSyn} (ha : MsgSafe a) : MsgSafe (.unReversibleS a)
  | unionS {a b : PSyn} (ha : MsgSafe a) (hb : MsgSafe b) : MsgSafe (.unionS a b)
  | repeatS {a : PSyn} (ha : MsgSafe a) (minIter : Nat) : MsgSafe (.repeatS a minIter)
  | wrapS {a : PSyn} (ha : MsgSafe a) : MsgSafe (.wrapS a)
  | optionS {a : PSyn} (ha : MsgSafe a) : MsgSafe (.optionS a)

/-- C10 counterexample: a parser built from the public API whose Failure has
an empty message list.  `mapFailMessages` with a transform returning the
empty list erases the messages of the underlying failure. -/
theorem eval_messages_counterexample :
    evalP 2 (fun _ => PSyn.noneS)
      (PSyn.mapFailMessagesS (fun _ => [])
        (PSyn.matchS (fun _ => false) (fun _ => []))) ("a".data) 0 =
      some (.failure [] 0 false) := rfl

/-- C10 amended: for every parser assembled from the public API surface in
which every transform passed to `mapFailMessages` (in the parser and in the
rule environment) maps non-empty message lists to non-empty lists, whenever
evaluation returns a Failure its message list is non-empty. -/
theorem eval_messages_nonempty (fuel : Nat) (env : Nat → PSyn) (syn : PSyn) (code : Str)
    (start : Nat) (m : List Str) (fi : Nat) (u : Bool)
    (henv : ∀ n, MsgSafe (env n)) (hsyn : MsgSafe syn)
    (h : evalP fuel env syn code start = some (.failure m fi u)) : m ≠ [] := by
  induction fuel generalizing syn start m fi u with
  | zero => cases h
  | succ fuel ih =>
    cases hsyn with
    | matchS f g =>
      simp only [evalP] at h
      exact matchP_msgs f g code start m fi u (Option.some.inj h)
    | wordS w =>
      simp only [evalP] at h
      exact word_msgs w code start m fi u (Option.some.inj h)
    | noneS =>
      simp only [evalP] at h
      exact Result.noConfusion (Option.some.inj h)
    | dynamicS n =>
      simp only [evalP] at h
      exact ih (env n) start m fi u (henv n) h
    | mapS f ha =>
      simp only [evalP] at h
      rename_i a
      cases hra : evalP fuel env a code start with
      | none =>
        simp only [hra] at h
        cases h
      | some r =>
        cases r with
        | failure m2 fi2 u2 =>
          simp only [hra] at h
          cases h
          exact ih a start _ _ _ ha hra
        | success v2 e2 =>
          simp only [hra] at h
          cases h
    | mapFailMessagesS f hf ha =>
      simp only [evalP] at h
      rename_i a
      cases hra : evalP fuel env a code start with
      | none =>
        simp only [hra] at h
        cases h
      | some r =>
        cases r with
        | failure m2 fi2 u2 =>
          simp only [hra] at h
          cases h
          exact hf m2 (ih a start _ _ _ ha hra)
        | success v2 e2 =>
          simp only [hra] at h
          cases h
    | concatS ha hb =>
      simp only [evalP] at h
      rename_i a b
      cases hra : evalP fuel env a code start with
      | none =>
        simp only [hra] at h
        cases h
      | some r =>
        cases r with
        | failure m2 fi2 u2 =>
          simp only [hra] at h
          cases h
          exact ih a start _ _ _ ha hra
        | success va ea =>
          simp only [hra] at h
          cases hrb : evalP fuel env b code ea with
          | none =>
            simp only [hrb] at h
            cases h
          | some r2 =>
            cases r2 with
            | failure m2 fi2 u2 =>
              simp only [hrb] at h
              cases h
              exact ih b ea _ _ _ hb hrb
            | success vb eb =>
              simp only [hrb] at h
              cases h
    | joinS ha hb =>
      simp only [evalP] at h
      exact ih _ start m fi u (MsgSafe.mapS _ (MsgSafe.concatS ha hb)) h
    | joinRightS ha hb =>
      simp only [evalP] at h
      exact ih _ start m fi u (MsgSafe.mapS _ (MsgSafe.concatS ha hb)) h
    | unReversibleS ha =>
      simp only [evalP] at h
      rename_i a
      cases hra : evalP fuel env a code start with
      | none =>
        simp only [hra] at h
        cases h
      | some r =>
        cases r with
        | failure m2 fi2 u2 =>
          simp only [hra] at h
          cases h
          exact ih a start _ _ _ ha hra
        | success v2 e2 =>
          simp only [hra] at h
          cases h
    | unionS ha hb =>
      simp only [evalP] at h
      rename_i a b
      cases hra : evalP fuel env a code start with
      | none =>
        simp only [hra] at h
        cases h
      | some r =>
        cases r with
        | success v2 e2 =>
          simp only [hra] at h
          cases h
        | failure ma fa ua =>
          cases ua with
          | true =>
            simp only [hra] at h
            simp only [if_true] at h
            cases h
            exact ih a start _ _ _ ha hra
          | false =>
            simp only [hra] at h
            rw [if_neg Bool.false_ne_true] at h
            cases hrb : evalP fuel env b code start with
            | none =>
              simp only [hrb] at h
              cases h
            | some r2 =>
              cases r2 with
              | success v2 e2 =>
                simp only [hrb] at h
                cases h
              | failure mb fb ub =>
                cases ub with
                | true =>
                  simp only [hrb] at h
                  simp only [if_true] at h
                  cases h
                  exact ih b start _ _ _ hb hrb
                | false =>
                  simp only [hrb] at h
                  rw [if_neg Bool.false_ne_true] at h
                  cases h
                  have hma : ma ≠ [] := ih a start _ _ _ ha hra
                  intro happ
                  exact hma (List.append_eq_nil.mp happ).1
    | repeatS ha minIter =>
      simp only [evalP] at h
      rename_i a
      obtain ⟨i, hi⟩ := repeatAux_failure_from (fun c i => evalP fuel env a c i) code minIter
        (fuel + 1) [] start m fi u h
      exact ih a i _ _ _ ha hi
    | wrapS ha =>
      simp only [evalP] at h
      rename_i a
      cases hra : evalP fuel env a code start with
      | none =>
        simp only [hra] at h
        cases h
      | some r =>
        cases r with
        | failure m2 fi2 u2 =>
          simp only [hra] at h
          cases h
          exact ih a start _ _ _ ha hra
        | success v2 e2 =>
          simp only [hra] at h
          cases h
    | optionS ha =>
      simp only [evalP] at h
      exact ih _ start m fi u (MsgSafe.unionS ha MsgSafe.noneS) h

/-- Witness for C10 amended at a concrete input: a `match` that rejects the
character yields a Failure whose message list is the non-empty singleton. -/
theorem eval_messages_nonempty_witness :
    evalP 1 (fun _ => PSyn.noneS) (PSyn.matchS (fun _ => false) (fun _ => ("m".data)))
        ("a".data) 0 = some (.failure [("m".data)] 0 false) ∧
      ([("m".data)] : List Str) ≠ [] :=
  ⟨rfl, eval_messages_nonempty 1 (fun _ => PSyn.noneS)
    (PSyn.matchS (fun _ => false) (fun _ => ("m".data))) ("a".data) 0 [("m".data)] 0 false
    (fun _ => MsgSafe.noneS) (MsgSafe.matchS _ _) rfl⟩
